import Mathlib

/-!
Verification of the loongarch-opcodes instruction-format generators.

This file shallowly embeds the two Go generator programs
(`scripts/go/geninsndata/main.go` and `scripts/go/geninstformats/main.go`,
the latter containing both the assembler-backend generator and the QEMU
TCG generator) and proves properties of the embedded model.

Machine integers (`uint32`, `int32_t`) are modelled as `Nat` bit patterns
with explicit `% 2 ^ 32` where Go/C overflow matters.  Code paths that
`panic` are modelled with `Option` (`none` = panic).  Data types that live
in the out-of-scope `common` package (`InsnDescription`, `InsnFormat`,
`Arg`, `Slot`, `CanonicalRepr`, `TotalWidth`) are modelled from the
specification, as noted on each definition.
-/

namespace Loong

/-- Modelled from the spec: a Slot is an absolute bit offset within the
32-bit word and a bit width (`common.InsnSlot`). -/
structure Slot where
  offset : Nat
  width : Nat
deriving DecidableEq

/-- Modelled from the spec: argument kinds — the closed set
{general-purpose-register, floating-point-register, condition-flag-register,
signed-immediate, unsigned-immediate} (`common.ArgKind`). -/
inductive ArgKind where
  | intReg
  | fpReg
  | fccReg
  | signedImm
  | unsignedImm
deriving DecidableEq

/-- Modelled from the spec: an Argument is a kind plus an ordered list of
slots, most-significant fragment first (`common.Arg`). -/
structure Arg where
  kind : ArgKind
  slots : List Slot
deriving DecidableEq

/-- Modelled from the spec: an InstructionFormat is an ordered sequence of
arguments (`common.InsnFormat`). -/
structure InsnFormat where
  args : List Arg
deriving DecidableEq

/-- Modelled from the spec: an InstructionRecord exposes mnemonic, 32-bit
base opcode word, a format reference and a set of string attribute tags
(`common.InsnDescription`).  The attribute set is modelled as a list of
tags; membership is what the code consults. -/
structure InsnDescription where
  mnemonic : String
  word : Nat
  format : InsnFormat
  attribs : List String
deriving DecidableEq

/-- Modelled from the spec: total logical width of an argument = sum of its
slot widths (`common.Arg.TotalWidth`). -/
def Arg.totalWidth (a : Arg) : Nat :=
  (a.slots.map Slot.width).sum

/-- Modelled from the spec: single letter for an argument kind, used in the
canonical name ("kind letter"). -/
def ArgKind.letter : ArgKind → Char
  | .intReg => 'R'
  | .fpReg => 'F'
  | .fccReg => 'C'
  | .signedImm => 'S'
  | .unsignedImm => 'U'

/-- Modelled from the spec: lower-case letter naming a slot by its absolute
offset; offsets outside the known set get a placeholder letter (the
canonical name is only required to be a deterministic string derived from
the argument descriptors). -/
def slotCharLower (o : Nat) : Char :=
  if o = 0 then 'd'
  else if o = 5 then 'j'
  else if o = 10 then 'k'
  else if o = 15 then 'a'
  else if o = 16 then 'm'
  else 'x'

/-- Modelled from the spec: canonical name of one argument — a
deterministic string derived from the ordered argument descriptors
(kind letter, then each slot's letter and width) (`common.Arg.CanonicalRepr`). -/
def Arg.canonicalRepr (a : Arg) : String :=
  String.mk (a.kind.letter :: a.slots.flatMap fun s =>
    slotCharLower s.offset :: Nat.toDigits 10 s.width)

/-- Modelled from the spec: canonical name of a format — the concatenation
of its arguments' canonical names, with the empty format spelled out
(`common.InsnFormat.CanonicalRepr`). -/
def InsnFormat.canonicalRepr (f : InsnFormat) : String :=
  if f.args.isEmpty then "EMPTY"
  else String.join (f.args.map Arg.canonicalRepr)

/-! ### String ordering

Go's `sort.Strings` sorts by lexicographic byte order; all generated codes
are ASCII, so we model it by lexicographic order on the character list. -/

/-- Lexicographic comparison of character lists (the order used by Go's
`sort.Strings` on the ASCII strings occurring here). -/
def charListLe : List Char → List Char → Bool
  | [], _ => true
  | _ :: _, [] => false
  | a :: as, b :: bs => if a = b then charListLe as bs else Nat.blt a.toNat b.toNat

/-- String comparison used to model `sort.Strings`. -/
def strLe (a b : String) : Bool :=
  charListLe a.toList b.toList

theorem Char.eq_of_toNat_eq {a b : Char} (h : a.toNat = b.toNat) : a = b :=
  Char.ext (UInt32.ext h)

theorem charListLe_total : ∀ a b : List Char, charListLe a b = true ∨ charListLe b a = true
  | [], _ => Or.inl rfl
  | _ :: _, [] => Or.inr rfl
  | a :: as, b :: bs => by
    by_cases hab : a = b
    · subst hab
      simpa [charListLe] using charListLe_total as bs
    · have hba : b ≠ a := fun h => hab h.symm
      have hne : a.toNat ≠ b.toNat := fun h => hab (Char.eq_of_toNat_eq h)
      rcases Nat.lt_or_ge a.toNat b.toNat with h | h
      · left
        simp [charListLe, hab, Nat.blt_eq, h]
      · right
        have : b.toNat < a.toNat := Nat.lt_of_le_of_ne h fun h2 => hne h2.symm
        simp [charListLe, hba, Nat.blt_eq, this]

theorem charListLe_trans :
    ∀ a b c : List Char, charListLe a b = true → charListLe b c = true →
      charListLe a c = true
  | [], _, _, _, _ => rfl
  | _ :: _, [], _, h, _ => by simp [charListLe] at h
  | _ :: _, _ :: _, [], _, h => by simp [charListLe] at h
  | a :: as, b :: bs, c :: cs, hab, hbc => by
    by_cases h1 : a = b
    · subst h1
      simp only [charListLe, if_pos rfl] at hab
      by_cases h2 : a = c
      · subst h2
        simp only [charListLe, if_pos rfl] at hbc ⊢
        exact charListLe_trans as bs cs hab hbc
      · simpa [charListLe, h2] using hbc
    · simp only [charListLe, if_neg h1, Nat.blt_eq] at hab
      by_cases h2 : b = c
      · subst h2
        simpa [charListLe, h1, Nat.blt_eq] using hab
      · simp only [charListLe, if_neg h2, Nat.blt_eq] at hbc
        have hac : a.toNat < c.toNat := Nat.lt_trans hab hbc
        have hne : a ≠ c := fun h => by
          subst h
          exact Nat.lt_irrefl _ (Nat.lt_trans hab hbc)
        simp [charListLe, hne, Nat.blt_eq, hac]

theorem charListLe_antisymm :
    ∀ a b : List Char, charListLe a b = true → charListLe b a = true → a = b
  | [], [], _, _ => rfl
  | [], _ :: _, _, h => by simp [charListLe] at h
  | _ :: _, [], h, _ => by simp [charListLe] at h
  | a :: as, b :: bs, hab, hba => by
    by_cases h1 : a = b
    · subst h1
      simp only [charListLe, if_pos rfl] at hab hba
      rw [charListLe_antisymm as bs hab hba]
    · have hba' : b ≠ a := fun h => h1 h.symm
      simp only [charListLe, if_neg h1, Nat.blt_eq] at hab
      simp only [charListLe, if_neg hba', Nat.blt_eq] at hba
      exact absurd (Nat.lt_trans hab hba) (Nat.lt_irrefl _)

theorem String.eq_of_toList_eq {a b : String} (h : a.toList = b.toList) : a = b :=
  String.ext h

theorem strLe_total (a b : String) : strLe a b = true ∨ strLe b a = true :=
  charListLe_total a.toList b.toList

theorem strLe_trans {a b c : String} (h1 : strLe a b = true) (h2 : strLe b c = true) :
    strLe a c = true :=
  charListLe_trans a.toList b.toList c.toList h1 h2

theorem strLe_antisymm {a b : String} (h1 : strLe a b = true) (h2 : strLe b a = true) :
    a = b :=
  String.eq_of_toList_eq (charListLe_antisymm a.toList b.toList h1 h2)

/-! ### Keyed deduplication

Both generators deduplicate by inserting into a Go map only if the key is
absent (`gatherFormats`, `gatherDistinctSlotCombinations`).  The map's
*contents* are deterministic; we model them as the insertion-ordered list
built by the same insert-if-absent loop.  (The map's *iteration order* is
randomized in Go; that nondeterminism is treated where the code sorts,
see the determinism theorem.) -/

/-- Insert-if-absent accumulation loop over a list, keyed by `key`:
the accumulator keeps the first element seen for each key. -/
def dedupKeyAux {α β : Type} [DecidableEq β] (key : α → β) (acc : List α) :
    List α → List α
  | [] => acc
  | x :: rest =>
    if acc.any fun y => key y = key x then dedupKeyAux key acc rest
    else dedupKeyAux key (acc ++ [x]) rest

/-- Contents of the insert-if-absent map, in insertion order. -/
def dedupBy {α β : Type} [DecidableEq β] (key : α → β) (l : List α) : List α :=
  dedupKeyAux key [] l

theorem dedupKeyAux_find {α β : Type} [DecidableEq β] (key : α → β) (r : β) :
    ∀ (rest acc : List α),
      (dedupKeyAux key acc rest).find? (fun g => decide (key g = r)) =
        (acc ++ rest).find? fun g => decide (key g = r)
  | [], acc => by simp [dedupKeyAux]
  | x :: rest, acc => by
    by_cases hc : acc.any fun y => key y = key x
    · rw [dedupKeyAux, if_pos hc, dedupKeyAux_find key r rest acc]
      by_cases hr : key x = r
      · obtain ⟨y, hy, hky⟩ := List.any_eq_true.mp hc
        have hky' : key y = r := by rw [of_decide_eq_true hky, hr]
        have : ∃ v, acc.find? (fun g => decide (key g = r)) = some v := by
          have hs : (acc.find? fun g => decide (key g = r)).isSome = true :=
            List.find?_isSome.mpr ⟨y, hy, decide_eq_true hky'⟩
          exact Option.isSome_iff_exists.mp hs
        obtain ⟨v, hv⟩ := this
        rw [List.find?_append, List.find?_append, hv]
        rfl
      · rw [List.find?_append, List.find?_append,
          List.find?_cons_of_neg rest (by simpa using hr)]
    · rw [dedupKeyAux, if_neg hc, dedupKeyAux_find key r rest (acc ++ [x]),
        List.append_assoc, List.singleton_append]

theorem dedupKeyAux_nodup_keys {α β : Type} [DecidableEq β] (key : α → β) :
    ∀ (rest acc : List α), ((acc.map key).Nodup) →
      ((dedupKeyAux key acc rest).map key).Nodup
  | [], _, h => h
  | x :: rest, acc, h => by
    by_cases hc : acc.any fun y => key y = key x
    · rw [dedupKeyAux, if_pos hc]
      exact dedupKeyAux_nodup_keys key rest acc h
    · rw [dedupKeyAux, if_neg hc]
      refine dedupKeyAux_nodup_keys key rest (acc ++ [x]) ?_
      rw [List.map_append]
      refine List.nodup_append.mpr ⟨h, List.nodup_singleton _, ?_⟩
      intro b hb hbx
      obtain ⟨y, hy, hky⟩ := List.mem_map.mp hb
      have hbx' : b = key x := by simpa using hbx
      exact hc (List.any_eq_true.mpr ⟨y, hy, decide_eq_true (by rw [hky, hbx'])⟩)

theorem dedupKeyAux_of_nodup_keys {α β : Type} [DecidableEq β] (key : α → β) :
    ∀ (rest acc : List α), (((acc ++ rest).map key).Nodup) →
      dedupKeyAux key acc rest = acc ++ rest
  | [], acc, _ => by simp [dedupKeyAux]
  | x :: rest, acc, h => by
    have hc : ¬acc.any fun y => key y = key x := by
      intro hc
      obtain ⟨y, hy, hky⟩ := List.any_eq_true.mp hc
      rw [List.map_append] at h
      obtain ⟨_, _, hdisj⟩ := List.nodup_append.mp h
      exact hdisj (List.mem_map.mpr ⟨y, hy, of_decide_eq_true hky⟩)
        (by simp)
    rw [dedupKeyAux, if_neg hc]
    have hstep := dedupKeyAux_of_nodup_keys key rest (acc ++ [x])
      (by rwa [List.append_assoc, List.singleton_append])
    rw [hstep, List.append_assoc, List.singleton_append]

/-- The deduplicated list keeps, for every key, exactly the first element
of the input with that key. -/
theorem dedupBy_find {α β : Type} [DecidableEq β] (key : α → β) (r : β) (l : List α) :
    (dedupBy key l).find? (fun g => decide (key g = r)) =
      l.find? fun g => decide (key g = r) := by
  simpa using dedupKeyAux_find key r l []

theorem dedupBy_nodup_keys {α β : Type} [DecidableEq β] (key : α → β) (l : List α) :
    ((dedupBy key l).map key).Nodup :=
  dedupKeyAux_nodup_keys key l [] (by simp)

theorem dedupBy_of_nodup_keys {α β : Type} [DecidableEq β] (key : α → β) (l : List α)
    (h : (l.map key).Nodup) : dedupBy key l = l := by
  simpa using dedupKeyAux_of_nodup_keys key l [] (by simpa using h)

theorem dedupBy_idem {α β : Type} [DecidableEq β] (key : α → β) (l : List α) :
    dedupBy key (dedupBy key l) = dedupBy key l :=
  dedupBy_of_nodup_keys key _ (dedupBy_nodup_keys key l)

theorem mem_keys_iff_find {α β : Type} [DecidableEq β] (key : α → β) (r : β)
    (l : List α) :
    r ∈ l.map key ↔ (l.find? fun g => decide (key g = r)).isSome = true := by
  rw [List.find?_isSome]
  constructor
  · rintro hm
    obtain ⟨g, hg, hkg⟩ := List.mem_map.mp hm
    exact ⟨g, hg, decide_eq_true hkg⟩
  · rintro ⟨g, hg, hkg⟩
    exact List.mem_map.mpr ⟨g, hg, of_decide_eq_true hkg⟩

theorem dedupBy_mem_keys {α β : Type} [DecidableEq β] (key : α → β) (r : β)
    (l : List α) : r ∈ (dedupBy key l).map key ↔ r ∈ l.map key := by
  rw [mem_keys_iff_find, mem_keys_iff_find, dedupBy_find]

/-- The deduplicated list has one entry per distinct key of the input. -/
theorem dedupBy_length {α β : Type} [DecidableEq β] (key : α → β) (l : List α) :
    (dedupBy key l).length = ((l.map key).dedup).length := by
  have h1 : ((dedupBy key l).map key).Nodup := dedupBy_nodup_keys key l
  have h2 : ((l.map key).dedup).Nodup := List.nodup_dedup _
  have hperm : ((dedupBy key l).map key).Perm ((l.map key).dedup) :=
    (List.perm_ext_iff_of_nodup h1 h2).mpr fun r => by
      rw [dedupBy_mem_keys, List.mem_dedup]
  calc (dedupBy key l).length
      = ((dedupBy key l).map key).length := (List.length_map _ _).symm
    _ = ((l.map key).dedup).length := hperm.length_eq

/-! ### Format catalog (`gatherFormats`, identical in both generators)

```go
formatsSet := make(map[string]*common.InsnFormat)
for _, d := range descs {
    canonicalFormatName := d.Format.CanonicalRepr()
    if _, ok := formatsSet[canonicalFormatName]; !ok {
        formatsSet[canonicalFormatName] = d.Format
    }
}
```
The stored format's key is its own canonical repr, so the map contents are
exactly the insert-if-absent dedup of the records' formats keyed by
canonical repr. -/

/-- Contents of the format catalog built by `gatherFormats`, in insertion
order (the Go map's iteration order is randomized; the callers sort). -/
def gatherFormats (descs : List InsnDescription) : List InsnFormat :=
  dedupBy InsnFormat.canonicalRepr (descs.map InsnDescription.format)

/-! ### Slot combinations (`slotCombinationForFmt`,
`gatherDistinctSlotCombinations`, identical in both programs of
`geninstformats/main.go` and in `geninsndata/main.go`) -/

/-- `slotD = 0`, `slotJ = 5`, `slotK = 10`, `slotA = 15`, `slotM = 16`:
the switch inside `slotCombinationForFmt`; the default branch panics. -/
def slotLetterForOffset (o : Nat) : Option Char :=
  if o = 0 then some 'D'
  else if o = 5 then some 'J'
  else if o = 10 then some 'K'
  else if o = 15 then some 'A'
  else if o = 16 then some 'M'
  else none

/-- The switch in `slotOffsetFromRune`; the default branch panics. -/
def slotOffsetFromRune (c : Char) : Option Nat :=
  if c = 'D' ∨ c = 'd' then some 0
  else if c = 'J' ∨ c = 'j' then some 5
  else if c = 'K' ∨ c = 'k' then some 10
  else if c = 'A' ∨ c = 'a' then some 15
  else if c = 'M' ∨ c = 'm' then some 16
  else none

/-- All slot offsets of a format, in argument order then slot order
(the append loop at the top of `slotCombinationForFmt`). -/
def formatSlotOffsets (f : InsnFormat) : List Nat :=
  f.args.flatMap fun a => a.slots.map Slot.offset

/-- `sort.Ints`: ascending sort of the collected offsets. -/
def sortNats (l : List Nat) : List Nat :=
  List.insertionSort (· ≤ ·) l

/-- Strict map over a list that aborts (`panic`) when the function aborts
on any element; models Go loops whose body can panic. -/
def mapOption {α β : Type} (g : α → Option β) : List α → Option (List β)
  | [] => some []
  | a :: l =>
    match g a, mapOption g l with
    | some b, some r => some (b :: r)
    | _, _ => none

/-- `slotCombinationForFmt`: sort all slot offsets ascending and render one
letter per offset; unknown offsets panic ("should never happen"). -/
def slotCombinationForFmt (f : InsnFormat) : Option String :=
  (mapOption slotLetterForOffset (sortNats (formatSlotOffsets f))).map String.mk

/-- `sort.Strings` over combination codes. -/
def sortStrings (l : List String) : List String :=
  List.insertionSort (fun a b => strLe a b = true) l

/-- `gatherDistinctSlotCombinations`: skip the empty format, collect each
remaining format's combination code into a set, return the sorted set.
The set's contents are modelled in insertion order by `dedupBy id`;
the result is returned sorted, the Go map's random iteration order having
been neutralized by `sort.Strings`. -/
def gatherDistinctSlotCombinations (fmts : List InsnFormat) : Option (List String) :=
  match mapOption slotCombinationForFmt (fmts.filter fun f => !f.args.isEmpty) with
  | none => none
  | some codes => some (sortStrings (dedupBy id codes))

/-- `sort.Slice(formats, ...)` in both `main`s: sort the catalog by
canonical repr. -/
def sortFormats (l : List InsnFormat) : List InsnFormat :=
  List.insertionSort
    (fun f g => strLe f.canonicalRepr g.canonicalRepr = true) l

theorem mapOption_eq_some {α β : Type} (g : α → Option β) :
    ∀ (l : List α) (r : List β), mapOption g l = some r → l.map g = r.map some
  | [], r, h => by
    simp only [mapOption, Option.some.injEq] at h
    rw [← h]
    rfl
  | a :: l, r, h => by
    simp only [mapOption] at h
    cases hga : g a with
    | none => rw [hga] at h; exact absurd h (by simp)
    | some b =>
      rw [hga] at h
      cases hgl : mapOption g l with
      | none => rw [hgl] at h; exact absurd h (by simp)
      | some rest =>
        rw [hgl] at h
        simp only [Option.some.injEq] at h
        rw [← h, List.map_cons, List.map_cons, hga,
          mapOption_eq_some g l rest hgl]

theorem mapOption_eq_none {α β : Type} (g : α → Option β) :
    ∀ (l : List α) (a : α), a ∈ l → g a = none → mapOption g l = none
  | [], _, ha, _ => absurd ha (List.not_mem_nil _)
  | x :: l, a, ha, hga => by
    rcases List.mem_cons.mp ha with h | h
    · subst h
      simp [mapOption, hga]
    · rw [mapOption, mapOption_eq_none g l a h hga]
      cases g x <;> rfl

theorem mapOption_isSome {α β : Type} (g : α → Option β) :
    ∀ l : List α, (∀ a ∈ l, (g a).isSome = true) → (mapOption g l).isSome = true
  | [], _ => rfl
  | a :: l, h => by
    obtain ⟨b, hb⟩ := Option.isSome_iff_exists.mp (h a (List.mem_cons_self a l))
    obtain ⟨r, hr⟩ := Option.isSome_iff_exists.mp
      (mapOption_isSome g l fun x hx => h x (List.mem_cons_of_mem a hx))
    simp [mapOption, hb, hr]

/-! ### Encoder semantics

The generators emit straight-line encoding code; we embed the value-level
semantics of the emitted code.  Go `uint32` arithmetic is `Nat` with
`% 2 ^ 32` on left shifts; `>>` on `uint32` and C `uint32_t` is logical
shift; `>>` on C `int32_t` is arithmetic shift on the 32-bit pattern. -/

/-- Arithmetic right shift of a 32-bit pattern (C `int32_t >> r`). -/
def sar32 (p r : Nat) : Nat :=
  if p < 2 ^ 31 then p >>> r else p >>> r ||| (2 ^ 32 - 2 ^ (32 - r))

/-- The multi-slot fragment-extraction loop shared by `emitEncoderForFormat`,
`emitBigEncoderFn` and `emitFmtEncoderFn`:

```go
remainingBits := int(a.TotalWidth())
for _, s := range a.Slots {
    remainingBits -= int(s.Width)
    mask := int((1 << s.Width) - 1)
    // fragment = (v >> remainingBits) & mask   (shift omitted when 0)
}
```
Returns `(offset, fragment)` pairs in slot order; `shr` is the right-shift
semantics of the target language for the argument's type. -/
def extractFragsWith (shr : Nat → Nat → Nat) (v : Nat) :
    Nat → List Slot → List (Nat × Nat)
  | _, [] => []
  | remaining, s :: rest =>
    let r := remaining - s.width
    (s.offset, (if 0 < r then shr v r else v) &&& (2 ^ s.width - 1)) ::
      extractFragsWith shr v r rest

/-- Fragment extraction with Go's logical `uint32` shift. -/
def extractFragments (w : Nat) (slots : List Slot) (v : Nat) : List (Nat × Nat) :=
  extractFragsWith (· >>> ·) v w slots

/-- Slot expressions of one argument in the `geninsndata` big encoder
(`emitBigEncoderFn`): a single-slot argument contributes its value
unchanged (no masking, for any kind); a multi-slot argument contributes its
extracted fragments. -/
def slotExprsBigArg (a : Arg) (v : Nat) : List (Nat × Nat) :=
  match a.slots with
  | [s] => [(s.offset, v)]
  | _ => extractFragments a.totalWidth a.slots v

/-- Slot expressions of one argument in the QEMU format encoder
(`emitFmtEncoderFn`): a single-slot signed immediate is masked to the
argument's total width ("signed imms need masking to convert to unsigned
slot value"); other single-slot arguments pass through; multi-slot
arguments contribute extracted fragments (arithmetic shift for the
`int32_t` signed-immediate case). -/
def slotExprsQemuArg (a : Arg) (v : Nat) : List (Nat × Nat) :=
  match a.slots with
  | [s] =>
    if a.kind = ArgKind.signedImm then
      [(s.offset, v &&& (2 ^ a.totalWidth - 1))]
    else
      [(s.offset, v)]
  | _ =>
    extractFragsWith
      (fun p r => if a.kind = ArgKind.signedImm then sar32 p r else p >>> r)
      v a.totalWidth a.slots

/-- The `slotExprs` Go map, built by iterating the arguments in order and
assigning each slot expression to its offset (later assignments to the same
offset overwrite, hence the newest pair is consed on and found first by
`List.lookup`). -/
def buildSlotExprs (exprFn : Arg → Nat → List (Nat × Nat))
    (pairs : List (Arg × Nat)) : List (Nat × Nat) :=
  pairs.foldl (fun m p => (exprFn p.1 p.2).foldl (fun m' kv => kv :: m') m) []

/-- The shared slot-combination encoder function
(`encodeXSlots` / `encode_x_slots`): OR every slot value into the base word
at its offset, in combination order (`bits | v0 << o0 | v1 << o1 | ...`,
the shift omitted at offset 0; `uint32` shifts wrap modulo `2 ^ 32`). -/
def orSlots (bits : Nat) (pairs : List (Nat × Nat)) : Nat :=
  pairs.foldl (fun acc ov => acc ||| (ov.2 <<< ov.1) % 2 ^ 32) bits

/-- Looks up, for each letter of the combination code, the slot expression
at that letter's offset (the argument-passing loop at the call of the slot
encoder; a missing entry panics "should never happen"). -/
def scArgPairs (m : List (Nat × Nat)) (code : String) : Option (List (Nat × Nat)) :=
  mapOption
    (fun c =>
      match slotOffsetFromRune c with
      | none => none
      | some o =>
        match m.lookup o with
        | none => none
        | some v => some (o, v))
    code.toList

/-- Semantics of the per-format case emitted by `emitBigEncoderFn` in
`geninsndata/main.go`: the empty format returns the base bits unchanged;
otherwise slot expressions are built per argument and OR'd into the base
bits through the shared slot-combination encoder.  `vals` are the
already-converted `uint32` argument values in argument order (`regInt`,
`uint32(imm)`, ... — negative signed immediates arrive as their
two's-complement patterns).  `none` models a generation-time panic. -/
def encodeBig (f : InsnFormat) (bits : Nat) (vals : List Nat) : Option Nat :=
  if f.args.isEmpty then some bits
  else
    match slotCombinationForFmt f with
    | none => none
    | some sc =>
      match scArgPairs (buildSlotExprs slotExprsBigArg (f.args.zip vals)) sc with
      | none => none
      | some pairs => some (orSlots bits pairs)

/-- Semantics of the function emitted by `emitFmtEncoderFn` in the QEMU
generator (ignoring the `tcg_debug_assert` bound checks, which do not
change the value): like `encodeBig` but with the QEMU slot expressions.
The emitted function skips the empty format entirely; callers OR nothing. -/
def encodeQemu (f : InsnFormat) (opc : Nat) (vals : List Nat) : Option Nat :=
  if f.args.isEmpty then some opc
  else
    match slotCombinationForFmt f with
    | none => none
    | some sc =>
      match scArgPairs (buildSlotExprs slotExprsQemuArg (f.args.zip vals)) sc with
      | none => none
      | some pairs => some (orSlots opc pairs)

/-- Semantics of the function emitted by `emitEncoderForFormat` in the
first program of `geninstformats/main.go`: arguments are OR'd in argument
order; a single-slot argument is OR'd as `bits |= v << offset` (unmasked);
a multi-slot argument ORs each extracted fragment directly
(`bits |= v >> r & mask`, with no shift to the slot's offset). -/
def encodeFmtGo (f : InsnFormat) (bits : Nat) (vals : List Nat) : Nat :=
  (f.args.zip vals).foldl
    (fun acc p =>
      match p.1.slots with
      | [s] => acc ||| (p.2 <<< s.offset) % 2 ^ 32
      | _ =>
        (extractFragments p.1.totalWidth p.1.slots p.2).foldl
          (fun acc' ov => acc' ||| ov.2) acc)
    bits

/-! ### Validator semantics

Both `emitValidatorForFormat`s emit, for each argument in declared order,
`if err := want...(arg); err != nil { return err }`, ending in
`return nil`.  The `want*` bound checks live outside this repository
(`wantIntReg`, `wantSignedImm`, ... in the assembler backend), so the
generated control structure is modelled over an arbitrary per-argument
check. -/

/-- Sequential early-return check chain: the emitted
`if err := ...; err != nil { return err }` sequence. -/
def runChecks {ε : Type} (check : Arg → Nat → Option ε) :
    List (Arg × Nat) → Option ε
  | [] => none
  | p :: rest =>
    match check p.1 p.2 with
    | some e => some e
    | none => runChecks check rest

/-- Semantics of the validator emitted by `emitValidatorForFormat`:
run the per-argument checks over the format's arguments in declared order,
returning the first failure, else success (`nil`). -/
def validateFmt {ε : Type} (check : Arg → Nat → Option ε) (f : InsnFormat)
    (vals : List Nat) : Option ε :=
  runChecks check (f.args.zip vals)

/-! ### QEMU bound asserts (`emitFmtEncoderFn`, the `tcg_debug_assert`s) -/

/-- The signed-immediate bound emitted by `emitFmtEncoderFn`:
`max := (1 << (W-1)) - 1; negativeMin := max + 1;`
`assert(v >= -negativeMin && v <= max)` on the `int32_t` value. -/
def wantSignedImmQemu (w : Nat) (v : Int) : Bool :=
  let mx : Int := ((2 : Int) ^ (w - 1)) - 1
  decide (-(mx + 1) ≤ v) && decide (v ≤ mx)

/-- The unsigned-immediate bound emitted by `emitFmtEncoderFn`:
`max := (1 << W) - 1; assert(v <= max)` on the `uint32_t` value
(modelled as its nonnegative bit pattern). -/
def wantUnsignedImmQemu (w : Nat) (v : Nat) : Bool :=
  decide (v ≤ 2 ^ w - 1)

/-! ### Table builder (`goOpcodeNameForInsn` + `emitInsnEncodings`,
identical in `geninsndata/main.go` and the first program of
`geninstformats/main.go`) -/

/-- `goOpcodeNameForInsn`: drop `.` and `_`, upper-case, prepend `A`
(e.g. `slli.w` => `ASLLIW`). -/
def goOpcodeNameForInsn (m : String) : String :=
  String.mk ('A' :: (m.toList.filter fun c => c ≠ '.' ∧ c ≠ '_').map Char.toUpper)

/-- One emitted entry of the `encodings` table:
`NAME & obj.AMask: {bits: 0x%08x, fmt: insnFormatREPR}`. -/
structure EncodingEntry where
  key : String
  bits : Nat
  fmtName : String
deriving DecidableEq

/-- Semantics of `emitInsnEncodings`: one table entry per record, in record
order, keyed by the record's Go opcode name — with no check of any kind
against duplicate mnemonics or keys. -/
def emitInsnEncodings (descs : List InsnDescription) : List EncodingEntry :=
  descs.map fun d =>
    { key := goOpcodeNameForInsn d.mnemonic
      bits := d.word
      fmtName := "insnFormat" ++ d.format.canonicalRepr }

/-! ### QEMU record filtering (`filterUnusedInsns`) -/

/-- `filterUnusedInsns`: keep exactly the records whose attribute set
contains the `qemu` tag. -/
def filterUnusedInsns (descs : List InsnDescription) : List InsnDescription :=
  descs.filter fun d => d.attribs.contains "qemu"

/-- `insnMnemonicToEnumVariantName` applied per record by `emitOpcEnum`:
`OPC_` + mnemonic with `.` replaced by `_`, upper-cased, paired with the
record's opcode word. -/
def opcEnumEntries (descs : List InsnDescription) : List (String × Nat) :=
  descs.map fun d =>
    ("OPC_" ++ String.mk ((d.mnemonic.toList.map fun c =>
      if c = '.' then '_' else c).map Char.toUpper), d.word)

/-! ### Shared helper lemmas -/

instance : IsTotal String fun a b => strLe a b = true :=
  ⟨fun a b => strLe_total a b⟩

instance : IsTrans String fun a b => strLe a b = true :=
  ⟨fun _ _ _ => strLe_trans⟩

theorem mapOption_mem {α β : Type} (g : α → Option β) (l : List α) (r : List β)
    (h : mapOption g l = some r) (b : β) : b ∈ r ↔ ∃ a ∈ l, g a = some b := by
  have hmap := mapOption_eq_some g l r h
  constructor
  · intro hb
    have : some b ∈ l.map g := by
      rw [hmap]
      exact List.mem_map.mpr ⟨b, hb, rfl⟩
    obtain ⟨a, ha, hga⟩ := List.mem_map.mp this
    exact ⟨a, ha, hga⟩
  · rintro ⟨a, ha, hga⟩
    have : some b ∈ r.map some := by
      rw [← hmap]
      exact List.mem_map.mpr ⟨a, ha, hga⟩
    obtain ⟨b', hb', hbb⟩ := List.mem_map.mp this
    rw [Option.some.injEq] at hbb
    exact hbb ▸ hb'

theorem runChecks_none_iff {ε : Type} (check : Arg → Nat → Option ε) :
    ∀ l : List (Arg × Nat),
      (runChecks check l = none ↔ ∀ p ∈ l, check p.1 p.2 = none)
  | [] => by simp [runChecks]
  | p :: rest => by
    rw [runChecks]
    cases hc : check p.1 p.2 with
    | some e =>
      simp only [false_iff, reduceCtorEq]
      intro hall
      exact absurd (hall p (List.mem_cons_self p rest)) (by simp [hc])
    | none =>
      rw [runChecks_none_iff check rest]
      constructor
      · intro hall q hq
        rcases List.mem_cons.mp hq with h | h
        · rw [h, hc]
        · exact hall q h
      · intro hall q hq
        exact hall q (List.mem_cons_of_mem p hq)

theorem runChecks_first {ε : Type} (check : Arg → Nat → Option ε) (a : Arg)
    (v : Nat) (post : List (Arg × Nat)) (e : ε) :
    ∀ pre : List (Arg × Nat), (∀ q ∈ pre, check q.1 q.2 = none) →
      check a v = some e → runChecks check (pre ++ (a, v) :: post) = some e
  | [], _, hav => by simp [runChecks, hav]
  | q :: pre, hpre, hav => by
    have hq : check q.1 q.2 = none := hpre q (List.mem_cons_self q pre)
    rw [List.cons_append, runChecks, hq]
    exact runChecks_first check a v post e pre
      (fun q' hq' => hpre q' (List.mem_cons_of_mem q hq')) hav

/-- Sorting by a key through `strLe` is a function of the input's multiset:
any two permutations of a list with pairwise-distinct keys sort to the same
list. -/
theorem insertionSort_key_eq {α : Type} (key : α → String) (l1 l2 : List α)
    (hp : l1.Perm l2) (nd : (l1.map key).Nodup) :
    List.insertionSort (fun a b => strLe (key a) (key b) = true) l1 =
      List.insertionSort (fun a b => strLe (key a) (key b) = true) l2 := by
  haveI : IsTotal α fun a b => strLe (key a) (key b) = true :=
    ⟨fun a b => strLe_total (key a) (key b)⟩
  haveI : IsTrans α fun a b => strLe (key a) (key b) = true :=
    ⟨fun _ _ _ => strLe_trans⟩
  haveI : IsAntisymm α fun a b =>
      (strLe (key a) (key b) = true) ∧ key a ≠ key b :=
    ⟨fun _ _ h1 h2 => absurd (strLe_antisymm h1.1 h2.1) h1.2⟩
  have nd2 : (l2.map key).Nodup := ((hp.map key).nodup_iff).mp nd
  have sortedOf : ∀ l : List α, (l.map key).Nodup →
      List.Sorted
        (fun a b => (strLe (key a) (key b) = true) ∧ key a ≠ key b)
        (List.insertionSort (fun a b => strLe (key a) (key b) = true) l) := by
    intro l hnd
    have hle := List.sorted_insertionSort
      (fun a b => strLe (key a) (key b) = true) l
    have hnd' : ((List.insertionSort
        (fun a b => strLe (key a) (key b) = true) l).map key).Nodup :=
      (((List.perm_insertionSort _ l).map key).nodup_iff).mpr hnd
    have hne := List.pairwise_map.mp hnd'
    exact hle.and hne
  have hperm : (List.insertionSort (fun a b => strLe (key a) (key b) = true) l1).Perm
      (List.insertionSort (fun a b => strLe (key a) (key b) = true) l2) :=
    ((List.perm_insertionSort _ l1).trans hp).trans
      (List.perm_insertionSort _ l2).symm
  exact List.eq_of_perm_of_sorted hperm (sortedOf l1 nd) (sortedOf l2 nd2)

/-! ### Claims -/

/-- Claim C3 counterexample: the claimed test vector is wrong on the code.
For total width 21 split into a 5-bit high slot and a 16-bit low slot, the
fragment-extraction algorithm of `emitBigEncoderFn` / `emitFmtEncoderFn`
applied to 0x155555 yields fragments [0x15, 0x5555] and not
[0x0A, 0x5555]: the high fragment is `(0x155555 >> 16) & 0x1F = 0x15`. -/
theorem c3_counterexample :
    (extractFragments 21 [⟨0, 5⟩, ⟨10, 16⟩] 0x155555).map Prod.snd ≠
      [0x0A, 0x5555] := by
  decide

/-- Claim C3 (amended): for an argument of total width 21 split into a
5-bit high slot and a 16-bit low slot, the encoder's fragment extraction
applied to 0x155555 yields high fragment 0x15 and low fragment 0x5555, and
recombining via `(high << 16) | low` equals `0x155555 & 0x1FFFFF`. -/
theorem c3_fragment_roundtrip :
    extractFragments 21 [⟨0, 5⟩, ⟨10, 16⟩] 0x155555 =
      [(0, 0x15), (10, 0x5555)] ∧
    ((0x15 <<< 16) ||| 0x5555) = 0x155555 &&& 0x1FFFFF := by
  exact ⟨by decide, by decide⟩

/-- Claim C1 counterexample: the encoder generated by `emitBigEncoderFn`
(`geninsndata/main.go`) does not mask single-slot signed immediates.  For a
format with one signed-immediate argument of width 12 in the slot at offset
10, the value −1 (in range for a signed 12-bit immediate, pattern
0xFFFFFFFF) is OR'd in unmasked: the encoded word is 0xFFFFFC00, which has
bits set outside the argument's slot `[10, 22)` (mask 0xFFC003FF of the
bits outside the slot catches 0xFFC00000 ≠ 0). -/
theorem c1_counterexample :
    encodeBig ⟨[⟨ArgKind.signedImm, [⟨10, 12⟩]⟩]⟩ 0 [0xFFFFFFFF] =
      some 0xFFFFFC00 ∧
    0xFFFFFC00 &&& 0xFFC003FF ≠ 0 ∧
    wantSignedImmQemu 12 (-1) = true := by
  exact ⟨by decide, by decide, by decide⟩

/-- Claim C1 (amended): only the dynamic-translation (QEMU) format encoder
masks a signed immediate to the argument's total logical width, and only in
the single-slot case, before OR-ing into the accumulator — the masked value
then contributes only bits inside the argument's slot.  The assembler
backend encoders (`emitBigEncoderFn` and `emitEncoderForFormat`) OR
single-slot signed-immediate values into the word unmasked.  (Multi-slot
arguments are not pre-masked in any generator; each fragment is masked to
its slot's width during extraction instead.) -/
theorem c1_masking (a : Arg) (s : Slot) (v : Nat) (f : InsnFormat) (bits : Nat)
    (hkind : a.kind = ArgKind.signedImm) (hslots : a.slots = [s])
    (hf : f.args = [a]) :
    slotExprsQemuArg a v = [(s.offset, v &&& (2 ^ a.totalWidth - 1))] ∧
    (∀ i : Nat, i < s.offset ∨ s.offset + a.totalWidth ≤ i →
      ((v &&& (2 ^ a.totalWidth - 1)) <<< s.offset).testBit i = false) ∧
    slotExprsBigArg a v = [(s.offset, v)] ∧
    encodeFmtGo f bits [v] = bits ||| (v <<< s.offset) % 2 ^ 32 := by
  refine ⟨?_, ?_, ?_, ?_⟩
  · rw [slotExprsQemuArg]
    rw [hslots]
    simp [hkind]
  · intro i hi
    rw [Nat.testBit_shiftLeft]
    rcases hi with hlt | hge
    · simp [Nat.not_le_of_lt hlt]
    · have hoff : s.offset ≤ i := le_trans (Nat.le_add_right _ _) hge
      have hw : ¬(i - s.offset < a.totalWidth) := by
        omega
      simp [Nat.testBit_and, Nat.testBit_two_pow_sub_one, hw]
  · rw [slotExprsBigArg]
    rw [hslots]
  · obtain ⟨fargs⟩ := f
    obtain ⟨ak, aslots⟩ := a
    change fargs = _ at hf
    change aslots = _ at hslots
    subst hf
    subst hslots
    rfl

/-- Witness for the amended claim C1 at the counterexample's format: a
signed-immediate argument of width 12 at offset 10 with value pattern
0xFFFFFFFF. -/
theorem c1_masking_witness :
    slotExprsQemuArg ⟨ArgKind.signedImm, [⟨10, 12⟩]⟩ 0xFFFFFFFF =
      [(10, 0xFFFFFFFF &&& (2 ^ (⟨ArgKind.signedImm, [⟨10, 12⟩]⟩ : Arg).totalWidth - 1))] ∧
    ((0xFFFFFFFF &&& (2 ^ (⟨ArgKind.signedImm, [⟨10, 12⟩]⟩ : Arg).totalWidth - 1)) <<< 10).testBit 22 = false ∧
    slotExprsBigArg ⟨ArgKind.signedImm, [⟨10, 12⟩]⟩ 0xFFFFFFFF = [(10, 0xFFFFFFFF)] ∧
    encodeFmtGo ⟨[⟨ArgKind.signedImm, [⟨10, 12⟩]⟩]⟩ 0 [0xFFFFFFFF] =
      0 ||| (0xFFFFFFFF <<< 10) % 2 ^ 32 := by
  have h := c1_masking ⟨ArgKind.signedImm, [⟨10, 12⟩]⟩ ⟨10, 12⟩ 0xFFFFFFFF
    ⟨[⟨ArgKind.signedImm, [⟨10, 12⟩]⟩]⟩ 0 rfl rfl rfl
  exact ⟨h.1, h.2.1 22 (Or.inr (by decide)), h.2.2.1, h.2.2.2⟩

/-- Claim C2 counterexample: constructing the per-mnemonic table from two
records sharing the mnemonic "foo.bar" does not fail — `emitInsnEncodings`
emits both entries, with the same key `AFOOBAR`. -/
theorem c2_counterexample :
    (emitInsnEncodings
        [⟨"foo.bar", 1, ⟨[]⟩, []⟩, ⟨"foo.bar", 2, ⟨[]⟩, []⟩]).map
        EncodingEntry.key = ["AFOOBAR", "AFOOBAR"] ∧
    (emitInsnEncodings
        [⟨"foo.bar", 1, ⟨[]⟩, []⟩, ⟨"foo.bar", 2, ⟨[]⟩, []⟩]).length = 2 := by
  exact ⟨by decide, by decide⟩

/-- Claim C2 (amended): the table builder performs no mnemonic-uniqueness
check: it always succeeds and emits exactly one entry per record in record
order, keyed by the record's Go opcode name — so two records sharing a
mnemonic yield two entries with identical keys rather than a construction
failure (the collision is only caught downstream, when the emitted Go
source is compiled). -/
theorem c2_table (descs : List InsnDescription) :
    (emitInsnEncodings descs).length = descs.length ∧
    ∀ d ∈ descs,
      (⟨goOpcodeNameForInsn d.mnemonic, d.word,
        "insnFormat" ++ d.format.canonicalRepr⟩ : EncodingEntry) ∈
        emitInsnEncodings descs := by
  constructor
  · exact List.length_map _ _
  · intro d hd
    exact List.mem_map.mpr ⟨d, hd, rfl⟩

/-- Witness for the amended claim C2 on a one-record table. -/
theorem c2_table_witness :
    (emitInsnEncodings [⟨"slli.w", 3, ⟨[]⟩, []⟩]).length = 1 ∧
    (⟨goOpcodeNameForInsn "slli.w", 3,
      "insnFormat" ++ (⟨[]⟩ : InsnFormat).canonicalRepr⟩ : EncodingEntry) ∈
      emitInsnEncodings [⟨"slli.w", 3, ⟨[]⟩, []⟩] := by
  have h := c2_table [⟨"slli.w", 3, ⟨[]⟩, []⟩]
  exact ⟨h.1, h.2 ⟨"slli.w", 3, ⟨[]⟩, []⟩ (List.mem_singleton.mpr rfl)⟩

/-- Claim C4: format canonicalization is an idempotent deduplication keyed
by the structural canonical signature: re-deduplicating the catalog changes
nothing, the catalog's keys are pairwise distinct, its size equals the
number of distinct signatures among the records (not the number of
records), and for every signature the stored format is the one of the first
record carrying it. -/
theorem c4_catalog_dedup (descs : List InsnDescription) :
    dedupBy InsnFormat.canonicalRepr (gatherFormats descs) = gatherFormats descs ∧
    ((gatherFormats descs).map InsnFormat.canonicalRepr).Nodup ∧
    (gatherFormats descs).length =
      ((descs.map fun d => d.format.canonicalRepr).dedup).length ∧
    ∀ r : String,
      (gatherFormats descs).find? (fun g => decide (g.canonicalRepr = r)) =
        (descs.map InsnDescription.format).find? fun g =>
          decide (g.canonicalRepr = r) := by
  refine ⟨?_, ?_, ?_, ?_⟩
  · exact dedupBy_idem InsnFormat.canonicalRepr _
  · exact dedupBy_nodup_keys InsnFormat.canonicalRepr _
  · rw [gatherFormats, dedupBy_length, List.map_map]
    rfl
  · intro r
    exact dedupBy_find InsnFormat.canonicalRepr r _

/-- Claim C5: the bound emitted for a signed immediate of total width W
accepts exactly −2^(W−1) ≤ v ≤ 2^(W−1) − 1, and the bound emitted for an
unsigned immediate of total width W accepts exactly the `uint32_t` patterns
v ≤ 2^W − 1 (so a C `-1` argument, arriving as pattern 2^32 − 1, is
rejected for W < 32). -/
theorem c5_validator_bounds (w : Nat) (_hw : 1 ≤ w) (v : Int) (u : Nat) :
    (wantSignedImmQemu w v = true ↔
      -((2 : Int) ^ (w - 1)) ≤ v ∧ v ≤ (2 : Int) ^ (w - 1) - 1) ∧
    (wantUnsignedImmQemu w u = true ↔ u ≤ 2 ^ w - 1) := by
  constructor
  · rw [wantSignedImmQemu]
    simp only [Bool.and_eq_true, decide_eq_true_eq]
    constructor
    · rintro ⟨h1, h2⟩
      exact ⟨by omega, h2⟩
    · rintro ⟨h1, h2⟩
      exact ⟨by omega, h2⟩
  · rw [wantUnsignedImmQemu]
    simp

/-- Witness for claim C5 at width 12: accepts −2048, 2047, 4095; rejects
−2049, 2048, 4096 and the pattern of −1. -/
theorem c5_validator_bounds_witness :
    wantSignedImmQemu 12 (-2048) = true ∧
    wantSignedImmQemu 12 2047 = true ∧
    wantSignedImmQemu 12 (-2049) = false ∧
    wantSignedImmQemu 12 2048 = false ∧
    wantUnsignedImmQemu 12 4095 = true ∧
    wantUnsignedImmQemu 12 4096 = false ∧
    wantUnsignedImmQemu 12 0xFFFFFFFF = false := by
  refine ⟨?_, ?_, by decide, by decide, ?_, by decide, by decide⟩
  · exact (c5_validator_bounds 12 (by decide) (-2048) 0).1.mpr (by decide)
  · exact (c5_validator_bounds 12 (by decide) 2047 0).1.mpr (by decide)
  · exact (c5_validator_bounds 12 (by decide) 0 4095).2.mpr (by decide)

/-- Claim C6: for a non-empty format, the slot-combination code has one
letter per slot offset, taken from the ascending sort of all slot offsets
across all arguments; the registry skips the empty format and returns the
sorted, duplicate-free list of the remaining formats' codes. -/
theorem c6_slot_combinations (f : InsnFormat) (cs : String)
    (hf : slotCombinationForFmt f = some cs) :
    ((sortNats (formatSlotOffsets f)).map slotLetterForOffset =
        cs.toList.map some ∧
      List.Sorted (· ≤ ·) (sortNats (formatSlotOffsets f)) ∧
      (sortNats (formatSlotOffsets f)).Perm (formatSlotOffsets f)) ∧
    ∀ (fmts : List InsnFormat) (l : List String),
      gatherDistinctSlotCombinations fmts = some l →
      List.Sorted (fun a b => strLe a b = true) l ∧ l.Nodup ∧
      ∀ s : String, s ∈ l ↔
        ∃ g ∈ fmts, g.args ≠ [] ∧ slotCombinationForFmt g = some s := by
  constructor
  · rw [slotCombinationForFmt] at hf
    cases hm : mapOption slotLetterForOffset (sortNats (formatSlotOffsets f)) with
    | none => rw [hm] at hf; exact absurd hf (by simp)
    | some chars =>
      rw [hm] at hf
      simp only [Option.map_some', Option.some.injEq] at hf
      have hcs : cs.toList = chars := by
        rw [← hf]
        rfl
      refine ⟨?_, ?_, List.perm_insertionSort _ _⟩
      · rw [hcs]
        exact mapOption_eq_some _ _ _ hm
      · exact List.sorted_insertionSort _ _
  · intro fmts l hl
    rw [gatherDistinctSlotCombinations] at hl
    cases hm : mapOption slotCombinationForFmt
        (fmts.filter fun g => !g.args.isEmpty) with
    | none => rw [hm] at hl; exact absurd hl (by simp)
    | some codes =>
      rw [hm] at hl
      simp only [Option.some.injEq] at hl
      have hdnodup : (dedupBy id codes).Nodup := by
        have := dedupBy_nodup_keys id codes
        rwa [List.map_id] at this
      have hperm : l.Perm (dedupBy id codes) := by
        rw [← hl]
        exact List.perm_insertionSort _ _
      refine ⟨?_, ?_, ?_⟩
      · rw [← hl]
        exact List.sorted_insertionSort _ _
      · exact hperm.nodup_iff.mpr hdnodup
      · intro s
        rw [hperm.mem_iff]
        have hmem : s ∈ dedupBy id codes ↔ s ∈ codes := by
          have := dedupBy_mem_keys id s codes
          rwa [List.map_id, List.map_id] at this
        rw [hmem, mapOption_mem _ _ _ hm s]
        constructor
        · rintro ⟨g, hg, hgs⟩
          obtain ⟨hgf, hne⟩ := List.mem_filter.mp hg
          refine ⟨g, hgf, ?_, hgs⟩
          simpa [List.isEmpty_iff] using hne
        · rintro ⟨g, hg, hne, hgs⟩
          refine ⟨g, List.mem_filter.mpr ⟨hg, ?_⟩, hgs⟩
          simpa [List.isEmpty_iff] using hne

/-- Witness for claim C6 on the one-argument format with a single slot at
offset 0 (code "D"). -/
theorem c6_slot_combinations_witness :
    ((sortNats (formatSlotOffsets ⟨[⟨ArgKind.intReg, [⟨0, 5⟩]⟩]⟩)).map
        slotLetterForOffset = ("D" : String).toList.map some ∧
      List.Sorted (· ≤ ·)
        (sortNats (formatSlotOffsets ⟨[⟨ArgKind.intReg, [⟨0, 5⟩]⟩]⟩)) ∧
      (sortNats (formatSlotOffsets ⟨[⟨ArgKind.intReg, [⟨0, 5⟩]⟩]⟩)).Perm
        (formatSlotOffsets ⟨[⟨ArgKind.intReg, [⟨0, 5⟩]⟩]⟩)) ∧
    List.Sorted (fun a b => strLe a b = true) ["D"] ∧
    (["D"] : List String).Nodup ∧
    ∀ s : String, s ∈ (["D"] : List String) ↔
      ∃ g ∈ [(⟨[⟨ArgKind.intReg, [⟨0, 5⟩]⟩]⟩ : InsnFormat)],
        g.args ≠ [] ∧ slotCombinationForFmt g = some s := by
  have h := c6_slot_combinations ⟨[⟨ArgKind.intReg, [⟨0, 5⟩]⟩]⟩ "D" (by decide)
  exact ⟨h.1, h.2 [⟨[⟨ArgKind.intReg, [⟨0, 5⟩]⟩]⟩] ["D"] (by decide)⟩

/-- Claim C7: the generated validator checks arguments in declared order:
it succeeds exactly when every argument's check passes, and whenever the
checks before position i pass and the check at position i fails, the
validator returns that failure — whatever the arguments after position i
are (no aggregation, later arguments irrelevant). -/
theorem c7_validator_order {ε : Type} (check : Arg → Nat → Option ε)
    (f : InsnFormat) (vals : List Nat) :
    (validateFmt check f vals = none ↔
      ∀ p ∈ f.args.zip vals, check p.1 p.2 = none) ∧
    ∀ (pre : List (Arg × Nat)) (a : Arg) (v : Nat) (post : List (Arg × Nat))
      (e : ε), f.args.zip vals = pre ++ (a, v) :: post →
      (∀ q ∈ pre, check q.1 q.2 = none) → check a v = some e →
      validateFmt check f vals = some e := by
  constructor
  · exact runChecks_none_iff check _
  · intro pre a v post e hsplit hpre hav
    rw [validateFmt, hsplit]
    exact runChecks_first check a v post e pre hpre hav

/-- Witness for claim C7: a two-argument format where the first argument's
check fails; the validator returns that failure. -/
theorem c7_validator_order_witness :
    validateFmt
      (fun (a : Arg) (v : Nat) => if v < 2 ^ a.totalWidth then none else some v)
      ⟨[⟨ArgKind.unsignedImm, [⟨0, 5⟩]⟩, ⟨ArgKind.unsignedImm, [⟨5, 5⟩]⟩]⟩
      [99, 7] = some 99 :=
  (c7_validator_order
      (fun (a : Arg) (v : Nat) => if v < 2 ^ a.totalWidth then none else some v)
      ⟨[⟨ArgKind.unsignedImm, [⟨0, 5⟩]⟩, ⟨ArgKind.unsignedImm, [⟨5, 5⟩]⟩]⟩
      [99, 7]).2
    [] ⟨ArgKind.unsignedImm, [⟨0, 5⟩]⟩ 99 [(⟨ArgKind.unsignedImm, [⟨5, 5⟩]⟩, 7)]
    99 rfl (fun q hq => absurd hq (List.not_mem_nil q)) (by decide)

/-- Claim C8: generation is deterministic although Go map iteration order
is not: the format catalog and the slot-combination set are emitted only
after sorting by an explicit stable key (canonical signature, combination
code), and the deduplicated collections have pairwise-distinct keys, so any
two iteration orders of the map contents sort to the same list.  (The
record table is sorted by base opcode word from an input whose order is
already deterministic.) -/
theorem c8_determinism :
    (∀ (descs : List InsnDescription) (l1 l2 : List InsnFormat),
      l1.Perm (gatherFormats descs) → l2.Perm (gatherFormats descs) →
      sortFormats l1 = sortFormats l2) ∧
    ∀ (codes : List String) (s1 s2 : List String),
      s1.Perm (dedupBy id codes) → s2.Perm (dedupBy id codes) →
      sortStrings s1 = sortStrings s2 := by
  constructor
  · intro descs l1 l2 h1 h2
    have nd : (l1.map InsnFormat.canonicalRepr).Nodup :=
      ((h1.map InsnFormat.canonicalRepr).nodup_iff).mpr
        (dedupBy_nodup_keys InsnFormat.canonicalRepr _)
    exact insertionSort_key_eq InsnFormat.canonicalRepr l1 l2
      (h1.trans h2.symm) nd
  · intro codes s1 s2 h1 h2
    have ndc : (dedupBy id codes).Nodup := by
      have := dedupBy_nodup_keys id codes
      rwa [List.map_id] at this
    have nd : (s1.map id).Nodup := by
      rw [List.map_id]
      exact (h1.nodup_iff).mpr ndc
    exact insertionSort_key_eq id s1 s2 (h1.trans h2.symm) nd

/-- Witness for claim C8: two iteration orders of a two-format catalog and
of a two-code combination set sort identically. -/
theorem c8_determinism_witness :
    sortFormats [⟨[⟨ArgKind.intReg, [⟨0, 5⟩]⟩]⟩, ⟨[]⟩] =
      sortFormats [⟨[]⟩, ⟨[⟨ArgKind.intReg, [⟨0, 5⟩]⟩]⟩] ∧
    sortStrings ["DJ", "D"] = sortStrings ["D", "DJ"] := by
  constructor
  · exact c8_determinism.1
      [⟨"x", 1, ⟨[⟨ArgKind.intReg, [⟨0, 5⟩]⟩]⟩, []⟩, ⟨"y", 2, ⟨[]⟩, []⟩]
      [⟨[⟨ArgKind.intReg, [⟨0, 5⟩]⟩]⟩, ⟨[]⟩]
      [⟨[]⟩, ⟨[⟨ArgKind.intReg, [⟨0, 5⟩]⟩]⟩] (by decide) (by decide)
  · exact c8_determinism.2 ["DJ", "D"] ["DJ", "D"] ["D", "DJ"]
      (by decide) (by decide)

/-- Claim C9: slot offsets must be one of exactly {0, 5, 10, 15, 16}
(tags D, J, K, A, M); a format containing a slot at any other offset in
[0, 32) makes slot-combination derivation abort (`panic`) rather than
produce output — although the data model itself places no such restriction
on offsets — while a format whose offsets all lie in the set succeeds. -/
theorem c9_slot_offsets (f : InsnFormat) (o : Nat) (_holt : o < 32)
    (hmem : o ∈ formatSlotOffsets f)
    (hbad : ¬(o = 0 ∨ o = 5 ∨ o = 10 ∨ o = 15 ∨ o = 16)) :
    slotCombinationForFmt f = none ∧
    (∀ fmts : List InsnFormat, f ∈ fmts →
      gatherDistinctSlotCombinations fmts = none) ∧
    ∀ g : InsnFormat,
      (∀ o' ∈ formatSlotOffsets g,
        o' = 0 ∨ o' = 5 ∨ o' = 10 ∨ o' = 15 ∨ o' = 16) →
      (slotCombinationForFmt g).isSome = true := by
  have hnone : slotCombinationForFmt f = none := by
    rw [slotCombinationForFmt]
    have hmem' : o ∈ sortNats (formatSlotOffsets f) :=
      (List.perm_insertionSort _ _).mem_iff.mpr hmem
    have hlet : slotLetterForOffset o = none := by
      rw [slotLetterForOffset]
      push_neg at hbad
      simp [hbad.1, hbad.2.1, hbad.2.2.1, hbad.2.2.2.1, hbad.2.2.2.2]
    rw [mapOption_eq_none slotLetterForOffset _ o hmem' hlet]
    rfl
  refine ⟨hnone, ?_, ?_⟩
  · intro fmts hf
    rw [gatherDistinctSlotCombinations]
    have hne : f.args ≠ [] := by
      intro hargs
      rw [formatSlotOffsets, hargs] at hmem
      exact absurd hmem (List.not_mem_nil o)
    have hfil : f ∈ fmts.filter fun g => !g.args.isEmpty :=
      List.mem_filter.mpr ⟨hf, by simpa [List.isEmpty_iff] using hne⟩
    rw [mapOption_eq_none slotCombinationForFmt _ f hfil hnone]
  · intro g hgood
    rw [slotCombinationForFmt]
    have hsome : (mapOption slotLetterForOffset
        (sortNats (formatSlotOffsets g))).isSome = true := by
      refine mapOption_isSome _ _ fun o' ho' => ?_
      have ho'' : o' ∈ formatSlotOffsets g :=
        (List.perm_insertionSort _ _).mem_iff.mp ho'
      rcases hgood o' ho'' with h | h | h | h | h <;>
        simp [slotLetterForOffset, h]
    obtain ⟨chars, hchars⟩ := Option.isSome_iff_exists.mp hsome
    rw [hchars]
    rfl

/-- Witness for claim C9: offset 7 is rejected (derivation panics on a
format using it, and on any catalog containing that format), while a
format using only offset 0 succeeds. -/
theorem c9_slot_offsets_witness :
    slotCombinationForFmt ⟨[⟨ArgKind.unsignedImm, [⟨7, 3⟩]⟩]⟩ = none ∧
    gatherDistinctSlotCombinations [⟨[⟨ArgKind.unsignedImm, [⟨7, 3⟩]⟩]⟩] = none ∧
    (slotCombinationForFmt ⟨[⟨ArgKind.intReg, [⟨0, 5⟩]⟩]⟩).isSome = true := by
  have h := c9_slot_offsets ⟨[⟨ArgKind.unsignedImm, [⟨7, 3⟩]⟩]⟩ 7
    (by decide) (by decide) (by decide)
  exact ⟨h.1,
    h.2.1 [⟨[⟨ArgKind.unsignedImm, [⟨7, 3⟩]⟩]⟩] (List.mem_singleton.mpr rfl),
    h.2.2 ⟨[⟨ArgKind.intReg, [⟨0, 5⟩]⟩]⟩ (by decide)⟩

/-- Claim C10: the QEMU renderer keeps a record iff its attribute set
contains the tag "qemu", and a record lacking that tag contributes nothing:
removing it anywhere from the input leaves the filtered record list — and
hence the opcode enumeration and the format catalog (from which encoders,
slot combinators and per-instruction emitters are derived) — unchanged. -/
theorem c10_qemu_filter (descs : List InsnDescription) (d : InsnDescription) :
    (d ∈ filterUnusedInsns descs ↔ d ∈ descs ∧ "qemu" ∈ d.attribs) ∧
    ∀ l1 l2 : List InsnDescription, "qemu" ∉ d.attribs →
      filterUnusedInsns (l1 ++ d :: l2) = filterUnusedInsns (l1 ++ l2) ∧
      opcEnumEntries (filterUnusedInsns (l1 ++ d :: l2)) =
        opcEnumEntries (filterUnusedInsns (l1 ++ l2)) ∧
      gatherFormats (filterUnusedInsns (l1 ++ d :: l2)) =
        gatherFormats (filterUnusedInsns (l1 ++ l2)) := by
  constructor
  · rw [filterUnusedInsns, List.mem_filter]
    simp [List.contains, List.elem_iff]
  · intro l1 l2 hq
    have hfil : filterUnusedInsns (l1 ++ d :: l2) =
        filterUnusedInsns (l1 ++ l2) := by
      rw [filterUnusedInsns, filterUnusedInsns, List.filter_append,
        List.filter_append, List.filter_cons]
      have : (d.attribs.contains "qemu") = false := by
        simpa using hq
      rw [this]
      simp
    exact ⟨hfil, by rw [hfil], by rw [hfil]⟩

/-- Witness for claim C10: of two records, only the one tagged "qemu"
survives filtering, and dropping the untagged one changes nothing. -/
theorem c10_qemu_filter_witness :
    ((⟨"add.d", 1, ⟨[]⟩, ["qemu"]⟩ : InsnDescription) ∈
        filterUnusedInsns [⟨"add.d", 1, ⟨[]⟩, ["qemu"]⟩, ⟨"sub.d", 2, ⟨[]⟩, []⟩] ↔
      (⟨"add.d", 1, ⟨[]⟩, ["qemu"]⟩ : InsnDescription) ∈
          [(⟨"add.d", 1, ⟨[]⟩, ["qemu"]⟩ : InsnDescription),
            ⟨"sub.d", 2, ⟨[]⟩, []⟩] ∧
        "qemu" ∈ (⟨"add.d", 1, ⟨[]⟩, ["qemu"]⟩ : InsnDescription).attribs) ∧
    filterUnusedInsns
        ([⟨"add.d", 1, ⟨[]⟩, ["qemu"]⟩] ++ (⟨"sub.d", 2, ⟨[]⟩, []⟩ : InsnDescription) :: []) =
      filterUnusedInsns ([⟨"add.d", 1, ⟨[]⟩, ["qemu"]⟩] ++ []) := by
  constructor
  · exact (c10_qemu_filter
      [⟨"add.d", 1, ⟨[]⟩, ["qemu"]⟩, ⟨"sub.d", 2, ⟨[]⟩, []⟩]
      ⟨"add.d", 1, ⟨[]⟩, ["qemu"]⟩).1
  · exact ((c10_qemu_filter
      [⟨"add.d", 1, ⟨[]⟩, ["qemu"]⟩, ⟨"sub.d", 2, ⟨[]⟩, []⟩]
      ⟨"sub.d", 2, ⟨[]⟩, []⟩).2
      [⟨"add.d", 1, ⟨[]⟩, ["qemu"]⟩] [] (by decide)).1

end Loong
